import Mathlib

/-!
Verification development for the ESP32_FlashDB configuration
(`src/components/FlashDB/inc/fdb_cfg.h`) and the flash storage engine it
parameterizes (a log-structured KVDB and an append-only TSDB).

The configuration constants below are transcribed directly from
`fdb_cfg.h`.  The storage-engine operations (record codec, recovery scan,
KVDB get/set/delete, TSDB append, garbage-collection victim selection) are
not shipped in this repository's sources, so they are modelled from the
specification, with each such definition marked `Modelled from the spec`.
-/

set_option maxHeartbeats 1000000

namespace FlashDB

/-! ## Configuration constants, transcribed from `fdb_cfg.h` -/

/-- `#define FDB_KVDB1_SIZE (512 * 1024)` — size of the KVDB logical
partition in bytes (`fdb_cfg.h` line 47). -/
def FDB_KVDB1_SIZE : Nat := 512 * 1024

/-- `#define FDB_TSDB1_SIZE (512 * 1024)` — size of the TSDB logical
partition in bytes (`fdb_cfg.h` line 48). -/
def FDB_TSDB1_SIZE : Nat := 512 * 1024

/-- `#define FDB_TOTAL_PARTITION_SIZE (FDB_KVDB1_SIZE + FDB_TSDB1_SIZE)` —
size of the physical "flashdb" partition (`fdb_cfg.h` line 52). -/
def FDB_TOTAL_PARTITION_SIZE : Nat := FDB_KVDB1_SIZE + FDB_TSDB1_SIZE

/-- `#define FDB_WRITE_GRAN 1` — flash write granularity in bits
(`fdb_cfg.h` line 37): the minimum number of bits programmable atomically
without a preceding erase, as exposed to the engine. -/
def FDB_WRITE_GRAN : Nat := 1

/-- `FDB_USING_TIMESTAMP_64BIT` is commented out in `fdb_cfg.h` (line 42),
so the 64-bit timestamp option is disabled in this deployment. -/
def FDB_USING_TIMESTAMP_64BIT : Bool := false

/-- `FDB_KV_AUTO_UPDATE` is commented out in `fdb_cfg.h` (line 23), so the
KV auto-update-on-version-change feature is disabled in this deployment. -/
def FDB_KV_AUTO_UPDATE : Bool := false

/-! ## Error taxonomy (spec §7) -/

/-- The error taxonomy of spec §7: shim I/O failure, CRC mismatch or
malformed header, allocation failure after GC, TSDB monotonicity
violation, KVDB miss with no default, KVDB namespace version drift, and
partition sizing invariant violation. -/
inductive FdbError where
  | ioError
  | corruptRecord
  | noSpace
  | outOfOrder
  | notFound
  | versionMismatch
  | configError
  deriving Repr, DecidableEq

/-- Modelled from the spec: the fail-fast partition sizing check of §3 and
§7 (`ConfigError` — "partition sizing invariant violated — fails at
initialization, before any I/O"; invariant
`sum(partition_sizes) <= physical_region_size`).  The check itself is not
in this repository's sources; only the configuration it validates is. -/
def checkPartitionConfig (partitionSizes : List Nat) (physicalRegionSize : Nat) :
    Option FdbError :=
  if partitionSizes.sum ≤ physicalRegionSize then none else some FdbError.configError

/-- Width in bits of the TSDB timestamp type `fdb_time_t`, as a function of
the `FDB_USING_TIMESTAMP_64BIT` configuration toggle: `int64_t` when the
toggle is set, `int32_t` otherwise (`fdb_cfg.h` lines 40-42). -/
def fdbTimeWidth (use64 : Bool) : Nat := if use64 then 64 else 32

/-- The timestamp width selected by this deployment's configuration. -/
def fdb_time_t_width : Nat := fdbTimeWidth FDB_USING_TIMESTAMP_64BIT

/-! ## Record codec (spec §3 "Record", §4.2)

Modelled from the spec: the record codec is part of the storage engine,
which is not among this repository's sources.  A record is header
(length fields, CRC, status byte) plus key and value bytes; the CRC
"covers key/timestamp + value + length"; a record is valid "only if
status == write-ok and CRC matches".  The status byte is "always the last
field mutated for a given transition", so in the byte-stream truncation
model (which truncates in write order) the committed write-ok status is
represented as the temporally last byte of the encoding. -/

/-- The status byte value marking a fully committed record
(`write-ok` in spec §3). -/
def STATUS_WRITE_OK : Nat := 15

/-- A decoded record: key bytes (or timestamp bytes for the TSDB) plus
value bytes.  Bytes are modelled as `Nat` values below 256. -/
structure FdbRecord where
  key : List Nat
  value : List Nat
  deriving Repr, DecidableEq

/-- A record within size limits: lengths fit the one-byte length fields
and all payload entries are bytes. -/
def FdbRecord.wf (r : FdbRecord) : Prop :=
  r.key.length ≤ 255 ∧ r.value.length ≤ 255 ∧
    (∀ b ∈ r.key, b < 256) ∧ ∀ b ∈ r.value, b < 256

instance (r : FdbRecord) : Decidable r.wf := by
  unfold FdbRecord.wf; infer_instance

/-- Modelled from the spec §4.2: the CRC covers key + value + length,
folded into a single check byte. -/
def fdbCrc (key value : List Nat) : Nat :=
  (key.length + value.length + key.sum + value.sum) % 256

/-- Modelled from the spec §4.2 (`encode(record) -> bytes`): key length,
value length, key bytes, value bytes, CRC byte, and finally the write-ok
status byte — the last byte mutated when committing the record. -/
def encode (r : FdbRecord) : List Nat :=
  r.key.length :: r.value.length ::
    (r.key ++ r.value ++ [fdbCrc r.key r.value, STATUS_WRITE_OK])

/-- Modelled from the spec §4.2 (`decode(bytes) -> record | CorruptRecord`,
`none` standing for `CorruptRecord`): parse the two length fields, the
payload, the CRC and the status; succeed only when the payload is fully
present, the CRC matches and the status byte is write-ok. -/
def decode : List Nat → Option (FdbRecord × List Nat)
  | kl :: vl :: body =>
    match (body.drop kl).drop vl with
    | c :: s :: rest =>
      if (body.take kl).length = kl ∧ ((body.drop kl).take vl).length = vl ∧
          c = fdbCrc (body.take kl) ((body.drop kl).take vl) ∧
          s = STATUS_WRITE_OK then
        some (⟨body.take kl, (body.drop kl).take vl⟩, rest)
      else none
    | _ => none
  | _ => none

/-- Modelled from the spec §4.5: the Recovery Manager walks records from
the first offset and stops at the first record that is not fully valid,
treating everything from that point on as free space.  `fuel` bounds the
walk by the stream length. -/
def recoverFuel : Nat → List Nat → List FdbRecord
  | 0, _ => []
  | Nat.succ fuel, bs =>
    match decode bs with
    | some (r, rest) => r :: recoverFuel fuel rest
    | none => []

/-- Modelled from the spec §4.5: run the recovery scan over a byte
stream, yielding the valid records found before the first corrupt or
incomplete one. -/
def recover (bs : List Nat) : List FdbRecord := recoverFuel bs.length bs

/-- The flash image of a sequence of fully committed records: their
encodings in sequence. -/
def encodeAll (recs : List FdbRecord) : List Nat := (recs.map encode).flatten

/-! ## KVDB engine (spec §4.3)

Modelled from the spec: the KVDB engine is part of the storage engine,
which is not among this repository's sources.  The observable state is an
append-only log of key records ("most recent wins"); `none` in a log
entry marks a tombstone written by `delete`; a configured default-value
table backs `get` misses. -/

/-- Key bytes. -/
abbrev Key := List Nat

/-- Value bytes. -/
abbrev Value := List Nat

/-- Modelled from the spec §4.3: the KVDB observable state — the
append-only record log (most recent last, `none` marking a tombstone)
and the configured default-value table. -/
structure Kvdb where
  log : List (Key × Option Value)
  defaults : List (Key × Value)
  deriving Repr, DecidableEq

/-- Result of `get(key) -> value | default | NotFound` (spec §4.3). -/
inductive GetResult where
  | found (v : Value)
  | defaulted (v : Value)
  | notFound
  deriving Repr, DecidableEq

/-- Modelled from the spec §4.3: when no current record exists for a key,
`get` returns the configured default value if one exists, else NotFound. -/
def kvFallback (db : Kvdb) (k : Key) : GetResult :=
  match db.defaults.find? (fun e => decide (e.1 = k)) with
  | some e => GetResult.defaulted e.2
  | none => GetResult.notFound

/-- Modelled from the spec §4.3 (`get`): scan records honoring "most
recent wins"; a tombstone or absent record falls through to the
default-value table. -/
def kvGet (db : Kvdb) (k : Key) : GetResult :=
  match db.log.reverse.find? (fun e => decide (e.1 = k)) with
  | some (_, some v) => GetResult.found v
  | some (_, none) => kvFallback db k
  | none => kvFallback db k

/-- Modelled from the spec §4.3 (`set`): append a new record for the key;
prior records for the key are superseded ("most recent wins"). -/
def kvSet (db : Kvdb) (k : Key) (v : Value) : Kvdb :=
  { db with log := db.log ++ [(k, some v)] }

/-- Modelled from the spec §4.3 (`delete`): write a tombstone record for
the key (logical delete); always succeeds at the observable level. -/
def kvDelete (db : Kvdb) (k : Key) : Kvdb :=
  { db with log := db.log ++ [(k, none)] }

/-- A KVDB mutation, used to state "no intervening operation on `k`". -/
inductive KvOp where
  | setOp (k : Key) (v : Value)
  | delOp (k : Key)
  deriving Repr, DecidableEq

/-- The key an operation touches. -/
def KvOp.key : KvOp → Key
  | setOp k _ => k
  | delOp k => k

/-- Apply one mutation. -/
def applyOp (db : Kvdb) : KvOp → Kvdb
  | KvOp.setOp k v => kvSet db k v
  | KvOp.delOp k => kvDelete db k

/-- Apply a sequence of mutations, oldest first. -/
def applyOps (db : Kvdb) (ops : List KvOp) : Kvdb := ops.foldl applyOp db

/-- Modelled from the spec §4.3 (version-tagged reset): wipe the
namespace and reinitialize every configured default as a fresh record. -/
def wipeReinit (db : Kvdb) : Kvdb :=
  { log := db.defaults.map (fun e => (e.1, some e.2)), defaults := db.defaults }

/-- Modelled from the spec §4.3: on a startup version mismatch the policy
is either "wipe and reinitialize to defaults" (when the auto-update
toggle is set) or "leave as-is" (when it is not), selected by the
`FDB_KV_AUTO_UPDATE` configuration. -/
def applyVersionPolicy (autoUpdate : Bool) (storedVer expectedVer : Nat)
    (db : Kvdb) : Kvdb :=
  if autoUpdate = true ∧ storedVer ≠ expectedVer then wipeReinit db else db

/-! ## TSDB engine (spec §4.4)

Modelled from the spec: the TSDB engine is part of the storage engine,
which is not among this repository's sources. -/

/-- Timestamp values (seconds since epoch; `fdb_time_t` is a signed
integer type whose width is chosen by `FDB_USING_TIMESTAMP_64BIT`). -/
abbrev FdbTime := Int

/-- Modelled from the spec §4.4: the TSDB observable state — the
append-only sequence of timestamped records and the timestamp of the most
recent append (the monotonicity watermark). -/
structure Tsdb where
  recs : List (FdbTime × Value)
  lastTime : Option FdbTime
  deriving Repr, DecidableEq

/-- Outcome of a TSDB append: success, or the `OutOfOrder` condition of
spec §4.4/§7. -/
inductive AppendResult where
  | ok
  | outOfOrder
  deriving Repr, DecidableEq

/-- Modelled from the spec §4.4 (`append`): timestamps must be
non-decreasing within a store; an out-of-order append is rejected with
`OutOfOrder` and leaves the store unchanged. -/
def tsAppend (db : Tsdb) (t : FdbTime) (v : Value) : Tsdb × AppendResult :=
  match db.lastTime with
  | some l =>
    if t < l then (db, AppendResult.outOfOrder)
    else ({ recs := db.recs ++ [(t, v)], lastTime := some t }, AppendResult.ok)
  | none => ({ recs := db.recs ++ [(t, v)], lastTime := some t }, AppendResult.ok)

/-! ## Sector/Log Allocator and garbage collection (spec §4.1)

Modelled from the spec: the allocator is part of the storage engine,
which is not among this repository's sources. -/

/-- Per-sector state (spec §3 "Sector"): `empty`, `inUse` (the current
write head, "using" in the spec), `full`, `dirty`. -/
inductive SectorState where
  | empty
  | inUse
  | full
  | dirty
  deriving Repr, DecidableEq

/-- A sector: its state, the bytes used by records written into it, and
how many of those bytes belong to superseded/tombstoned records. -/
structure Sector where
  state : SectorState
  used : Nat
  garbage : Nat
  deriving Repr, DecidableEq

/-- The fixed sector size (spec §8 uses 4096-byte sectors).  All sectors
of a store share this size, so ordering sectors by their ratio of
superseded/tombstoned bytes is the same as ordering them by their
garbage byte count. -/
def SECTOR_SIZE : Nat := 4096

/-- The full sectors of a store, each paired with its sector index
(`i` is the index of the first sector of `l`). -/
def fullSectors : List Sector → Nat → List (Nat × Sector)
  | [], _ => []
  | s :: rest, i =>
    if s.state = SectorState.full then (i, s) :: fullSectors rest (i + 1)
    else fullSectors rest (i + 1)

/-- Pick the candidate with the most garbage bytes, keeping the earliest
candidate on ties. -/
def pickVictim : List (Nat × Sector) → Option (Nat × Sector)
  | [] => none
  | p :: rest =>
    match pickVictim rest with
    | none => some p
    | some b => if b.2.garbage > p.2.garbage then some b else some p

/-- Modelled from the spec §4.1: the GC victim is the `full` sector with
the highest ratio of superseded/tombstoned bytes, tie-broken by the
lowest sector index (sectors share `SECTOR_SIZE`, so the ratio order is
the garbage-byte order). -/
def selectGcVictim (ss : List Sector) : Option Nat :=
  (pickVictim (fullSectors ss 0)).map (fun p => p.1)

/-- Outcome of a write: success, or the `NoSpace` condition of spec §4.1
and §7. -/
inductive WriteResult where
  | ok
  | noSpace
  deriving Repr, DecidableEq

/-- A store as seen by the allocator: the active sector (the current
write head) and the remaining sectors in index order. -/
structure GcStore where
  active : Sector
  rest : List Sector
  deriving Repr, DecidableEq

/-- Index of the first empty sector, if any. -/
def findEmptyIdx (ss : List Sector) : Option Nat :=
  ss.findIdx? (fun s => decide (s.state = SectorState.empty))

/-- Modelled from the spec §4.1: write a record of `need` bytes at the
current write head.  If the active sector fits it, write there.
Otherwise the active sector is marked `full` and the next `empty` sector
becomes active; if no `empty` sector exists, garbage collection runs
synchronously: the victim chosen by `selectGcVictim` has its live bytes
copied forward, it is erased, and it becomes the new write head (the old
active sector taking its slot in the list).  If reclamation yields no
space, the write fails with `NoSpace` and the store is left unchanged —
data is never silently dropped. -/
def allocWrite (store : GcStore) (need : Nat) : GcStore × WriteResult :=
  if store.active.used + need ≤ SECTOR_SIZE then
    ({ store with active := { store.active with used := store.active.used + need } },
      WriteResult.ok)
  else
    match findEmptyIdx store.rest with
    | some j =>
      if need ≤ SECTOR_SIZE then
        ({ active := { state := SectorState.inUse, used := need, garbage := 0 },
           rest := store.rest.set j { store.active with state := SectorState.full } },
          WriteResult.ok)
      else (store, WriteResult.noSpace)
    | none =>
      match selectGcVictim store.rest with
      | some i =>
        match store.rest[i]? with
        | some victim =>
          if victim.used - victim.garbage + need ≤ SECTOR_SIZE then
            ({ active := { state := SectorState.inUse,
                           used := victim.used - victim.garbage + need,
                           garbage := 0 },
               rest := store.rest.set i { store.active with state := SectorState.full } },
              WriteResult.ok)
          else (store, WriteResult.noSpace)
        | none => (store, WriteResult.noSpace)
      | none => (store, WriteResult.noSpace)

/-! ### Codec and recovery helper lemmas -/

/-- Decoding a committed record consumes exactly its encoding. -/
theorem decode_encode (r : FdbRecord) (rest : List Nat) :
    decode (encode r ++ rest) = some (r, rest) := by
  simp [encode, decode, List.append_assoc, List.take_left, List.drop_left]

/-- A byte stream shorter than the record frame it starts never decodes:
the frame needs `kl + vl + 2` bytes after the two length fields. -/
theorem decode_short (kl vl : Nat) (body : List Nat)
    (hshort : body.length < kl + vl + 2) :
    decode (kl :: vl :: body) = none := by
  have hlen : ((body.drop kl).drop vl).length < 2 := by
    simp only [List.length_drop]
    omega
  cases h2 : (body.drop kl).drop vl with
  | nil => simp [decode, h2]
  | cons c t =>
    cases t with
    | nil => simp [decode, h2]
    | cons s rest =>
      rw [h2] at hlen
      simp at hlen
      omega

/-- A proper initial segment of a record's encoding — the flash image left
by a power loss mid-record — never decodes as a record. -/
theorem decode_truncated (r : FdbRecord) (tb : List Nat)
    (hp : tb <+: encode r) (hne : tb ≠ encode r) : decode tb = none := by
  obtain ⟨t, ht⟩ := hp
  have htne : t ≠ [] := by
    rintro rfl
    simp only [List.append_nil] at ht
    exact hne ht
  match tb with
  | [] => rfl
  | [kl] => rfl
  | kl :: vl :: body =>
    simp only [encode, List.cons_append, List.cons.injEq, List.append_assoc] at ht
    obtain ⟨hkl, hvl, hbody⟩ := ht
    have hlen : body.length + t.length
        = r.key.length + (r.value.length + 2) := by
      have := congrArg List.length hbody
      simpa using this
    have htpos : 0 < t.length := List.length_pos.mpr htne
    apply decode_short
    omega

/-- A successful decode consumes at least the four header/frame bytes. -/
theorem decode_length {bs : List Nat} {r : FdbRecord} {rest : List Nat}
    (h : decode bs = some (r, rest)) : rest.length + 4 ≤ bs.length := by
  match bs with
  | [] => simp [decode] at h
  | [kl] => simp [decode] at h
  | kl :: vl :: body =>
    cases h2 : (body.drop kl).drop vl with
    | nil => simp [decode, h2] at h
    | cons c t =>
      cases t with
      | nil => simp [decode, h2] at h
      | cons s rest2 =>
        simp only [decode, h2] at h
        split at h
        · have hrest : rest2 = rest := congrArg Prod.snd (Option.some.inj h)
          have hd : ((body.drop kl).drop vl).length ≤ body.length := by
            simp only [List.length_drop]
            omega
          rw [h2] at hd
          simp only [List.length_cons] at hd
          subst hrest
          simp only [List.length_cons]
          omega
        · simp at h

theorem recoverFuel_nil (fuel : Nat) : recoverFuel fuel [] = [] := by
  cases fuel with
  | zero => rfl
  | succ n => simp [recoverFuel, decode]

theorem recoverFuel_congr (f1 : Nat) :
    ∀ f2 bs, bs.length ≤ f1 → bs.length ≤ f2 →
      recoverFuel f1 bs = recoverFuel f2 bs := by
  induction f1 with
  | zero =>
    intro f2 bs h1 _
    have : bs = [] := List.eq_nil_of_length_eq_zero (Nat.le_zero.mp h1)
    subst this
    rw [recoverFuel_nil, recoverFuel_nil]
  | succ n ih =>
    intro f2 bs h1 h2
    cases bs with
    | nil => rw [recoverFuel_nil, recoverFuel_nil]
    | cons b bs' =>
      have h2pos : 0 < f2 := by
        simp only [List.length_cons] at h2
        omega
      obtain ⟨m, rfl⟩ := Nat.exists_eq_succ_of_ne_zero (Nat.pos_iff_ne_zero.mp h2pos)
      cases hd : decode (b :: bs') with
      | none => simp only [recoverFuel, hd]
      | some pr =>
        obtain ⟨r, rest⟩ := pr
        have hlen := decode_length hd
        simp only [recoverFuel, hd]
        simp only [List.length_cons] at h1 h2 hlen
        rw [ih m rest (by omega) (by omega)]

theorem recover_cons {bs : List Nat} {r : FdbRecord} {rest : List Nat}
    (h : decode bs = some (r, rest)) : recover bs = r :: recover rest := by
  have hlen := decode_length h
  match bs with
  | [] => simp [decode] at h
  | b :: bs' =>
    show recoverFuel (b :: bs').length (b :: bs') = _
    simp only [List.length_cons, recoverFuel, h]
    simp only [List.length_cons] at hlen
    rw [recoverFuel_congr bs'.length rest.length rest (by omega) (Nat.le_refl _)]
    rfl

theorem recover_none {bs : List Nat} (h : decode bs = none) :
    recover bs = [] := by
  match bs with
  | [] => rfl
  | b :: bs' =>
    show recoverFuel (b :: bs').length (b :: bs') = _
    simp only [List.length_cons, recoverFuel, h]

/-! ### KVDB helper lemmas -/

/-- Appending a record for a different key does not change `get k`. -/
theorem kvGet_append_ne (db : Kvdb) (k k' : Key) (x : Option Value)
    (hne : k' ≠ k) :
    kvGet { db with log := db.log ++ [(k', x)] } k = kvGet db k := by
  unfold kvGet kvFallback
  simp only [List.reverse_append, List.reverse_cons, List.reverse_nil,
    List.nil_append, List.cons_append]
  rw [List.find?_cons_of_neg _ (by simp [hne])]

/-- Appending a record for `k` makes it the current record: a value is
found, a tombstone falls through to the default table. -/
theorem kvGet_append_self (db : Kvdb) (k : Key) (x : Option Value) :
    kvGet { db with log := db.log ++ [(k, x)] } k
      = match x with
        | some v => GetResult.found v
        | none => kvFallback db k := by
  unfold kvGet kvFallback
  simp only [List.reverse_append, List.reverse_cons, List.reverse_nil,
    List.nil_append, List.cons_append]
  rw [List.find?_cons_of_pos _ (by simp)]
  cases x <;> rfl

/-- Mutations that touch only other keys do not change `get k`. -/
theorem kvGet_applyOps_ne (db : Kvdb) (ops : List KvOp) (k : Key)
    (hops : ∀ op ∈ ops, op.key ≠ k) :
    kvGet (applyOps db ops) k = kvGet db k := by
  induction ops generalizing db with
  | nil => rfl
  | cons op rest ih =>
    have hstep : kvGet (applyOp db op) k = kvGet db k := by
      cases op with
      | setOp k' v' =>
        exact kvGet_append_ne db k k' (some v') (hops (KvOp.setOp k' v') (by simp))
      | delOp k' =>
        exact kvGet_append_ne db k k' none (hops (KvOp.delOp k') (by simp))
    calc kvGet (applyOps db (op :: rest)) k
        = kvGet (applyOps (applyOp db op) rest) k := rfl
      _ = kvGet (applyOp db op) k :=
          ih (applyOp db op) (fun o ho => hops o (List.mem_cons_of_mem _ ho))
      _ = kvGet db k := hstep

/-! ### Allocator helper lemmas -/

theorem pickVictim_eq_none {l : List (Nat × Sector)}
    (h : pickVictim l = none) : l = [] := by
  cases l with
  | nil => rfl
  | cons p rest =>
    cases hr : pickVictim rest with
    | none => simp [pickVictim, hr] at h
    | some c =>
      simp only [pickVictim, hr] at h
      split at h <;> simp at h

theorem pickVictim_mem : ∀ (l : List (Nat × Sector)) (b : Nat × Sector),
    pickVictim l = some b → b ∈ l := by
  intro l
  induction l with
  | nil => intro b h; simp [pickVictim] at h
  | cons p rest ih =>
    intro b h
    cases hr : pickVictim rest with
    | none =>
      simp only [pickVictim, hr] at h
      cases Option.some.inj h
      exact List.mem_cons_self _ _
    | some c =>
      simp only [pickVictim, hr] at h
      split at h
      · cases Option.some.inj h
        exact List.mem_cons_of_mem _ (ih b hr)
      · cases Option.some.inj h
        exact List.mem_cons_self _ _

theorem pickVictim_max : ∀ (l : List (Nat × Sector)) (b : Nat × Sector),
    pickVictim l = some b → ∀ q ∈ l, q.2.garbage ≤ b.2.garbage := by
  intro l
  induction l with
  | nil => intro b h; simp [pickVictim] at h
  | cons p rest ih =>
    intro b h q hq
    cases hr : pickVictim rest with
    | none =>
      have hrest : rest = [] := pickVictim_eq_none hr
      subst hrest
      simp only [pickVictim] at h
      cases Option.some.inj h
      rcases List.mem_cons.mp hq with rfl | hq'
      · exact Nat.le_refl _
      · simp at hq'
    | some c =>
      simp only [pickVictim, hr] at h
      split at h
      case isTrue hgt =>
        cases Option.some.inj h
        rcases List.mem_cons.mp hq with rfl | hq'
        · exact Nat.le_of_lt hgt
        · exact ih b hr q hq'
      case isFalse hgt =>
        cases Option.some.inj h
        rcases List.mem_cons.mp hq with rfl | hq'
        · exact Nat.le_refl _
        · exact Nat.le_trans (ih c hr q hq') (Nat.le_of_not_lt hgt)

theorem pickVictim_earliest : ∀ (l : List (Nat × Sector)) (b : Nat × Sector),
    l.Pairwise (fun a c => a.1 < c.1) → pickVictim l = some b →
    ∀ q ∈ l, q.2.garbage = b.2.garbage → b.1 ≤ q.1 := by
  intro l
  induction l with
  | nil => intro b _ h; simp [pickVictim] at h
  | cons p rest ih =>
    intro b hpw h q hq hg
    rw [List.pairwise_cons] at hpw
    obtain ⟨hhead, htail⟩ := hpw
    cases hr : pickVictim rest with
    | none =>
      have hrest : rest = [] := pickVictim_eq_none hr
      subst hrest
      simp only [pickVictim] at h
      cases Option.some.inj h
      rcases List.mem_cons.mp hq with rfl | hq'
      · exact Nat.le_refl _
      · simp at hq'
    | some c =>
      simp only [pickVictim, hr] at h
      split at h
      case isTrue hgt =>
        cases Option.some.inj h
        rcases List.mem_cons.mp hq with rfl | hq'
        · omega
        · exact ih b htail hr q hq' hg
      case isFalse hgt =>
        cases Option.some.inj h
        rcases List.mem_cons.mp hq with rfl | hq'
        · exact Nat.le_refl _
        · exact Nat.le_of_lt (hhead q hq')

theorem fullSectors_sound : ∀ (l : List Sector) (i : Nat) (p : Nat × Sector),
    p ∈ fullSectors l i →
    p.2.state = SectorState.full ∧ i ≤ p.1 ∧ l[p.1 - i]? = some p.2 := by
  intro l
  induction l with
  | nil => intro i p hp; simp [fullSectors] at hp
  | cons s rest ih =>
    intro i p hp
    by_cases hs : s.state = SectorState.full
    · rw [fullSectors, if_pos hs] at hp
      rcases List.mem_cons.mp hp with rfl | hp'
      · refine ⟨hs, Nat.le_refl _, ?_⟩
        simp
      · obtain ⟨h1, h2, h3⟩ := ih (i + 1) p hp'
        refine ⟨h1, by omega, ?_⟩
        have hsub : p.1 - i = (p.1 - (i + 1)) + 1 := by omega
        rw [hsub]
        simpa using h3
    · rw [fullSectors, if_neg hs] at hp
      obtain ⟨h1, h2, h3⟩ := ih (i + 1) p hp
      refine ⟨h1, by omega, ?_⟩
      have hsub : p.1 - i = (p.1 - (i + 1)) + 1 := by omega
      rw [hsub]
      simpa using h3

theorem fullSectors_complete : ∀ (l : List Sector) (i j : Nat) (s : Sector),
    l[j]? = some s → s.state = SectorState.full →
    (i + j, s) ∈ fullSectors l i := by
  intro l
  induction l with
  | nil => intro i j s h _; simp at h
  | cons a rest ih =>
    intro i j s h hs
    cases j with
    | zero =>
      simp only [List.getElem?_cons_zero] at h
      cases Option.some.inj h
      rw [fullSectors, if_pos hs]
      simp
    | succ j' =>
      simp only [List.getElem?_cons_succ] at h
      have hmem := ih (i + 1) j' s h hs
      have heq : i + (j' + 1) = (i + 1) + j' := by omega
      rw [heq, fullSectors]
      by_cases ha : a.state = SectorState.full
      · rw [if_pos ha]
        exact List.mem_cons_of_mem _ hmem
      · rw [if_neg ha]
        exact hmem

theorem fullSectors_pairwise : ∀ (l : List Sector) (i : Nat),
    (fullSectors l i).Pairwise (fun a b => a.1 < b.1) := by
  intro l
  induction l with
  | nil => intro i; simp [fullSectors]
  | cons a rest ih =>
    intro i
    rw [fullSectors]
    by_cases ha : a.state = SectorState.full
    · rw [if_pos ha]
      refine List.Pairwise.cons ?_ (ih (i + 1))
      intro q hq
      have hlb := (fullSectors_sound rest (i + 1) q hq).2.1
      omega
    · rw [if_neg ha]
      exact ih (i + 1)

/-- Every `NoSpace` outcome of `allocWrite` leaves the store unchanged. -/
theorem allocWrite_noSpace_unchanged (store : GcStore) (need : Nat)
    (st' : GcStore) (h : allocWrite store need = (st', WriteResult.noSpace)) :
    st' = store := by
  unfold allocWrite at h
  repeat' split at h
  all_goals
    first
      | exact (congrArg Prod.fst h).symm
      | exact absurd (congrArg Prod.snd h) (by simp)

end FlashDB

namespace FlashDB

/-! ## Claim theorems about the configuration -/

/-- C1: the combined size of the KVDB and TSDB logical partitions does not
exceed the physical region backing them: `FDB_KVDB1_SIZE + FDB_TSDB1_SIZE ≤
FDB_TOTAL_PARTITION_SIZE`, with `FDB_TOTAL_PARTITION_SIZE` defined as
exactly their sum, so the fail-fast `ConfigError` check passes on this
configuration. -/
theorem partition_sizes_within_region :
    FDB_KVDB1_SIZE + FDB_TSDB1_SIZE ≤ FDB_TOTAL_PARTITION_SIZE ∧
    FDB_TOTAL_PARTITION_SIZE = FDB_KVDB1_SIZE + FDB_TSDB1_SIZE ∧
    checkPartitionConfig [FDB_KVDB1_SIZE, FDB_TSDB1_SIZE] FDB_TOTAL_PARTITION_SIZE
      = none := by
  refine ⟨Nat.le_refl _, rfl, ?_⟩
  decide

/-- C2: the flash write granularity configured for this deployment is
exactly 1 bit (`FDB_WRITE_GRAN` is `1`). -/
theorem write_granularity_is_one_bit : FDB_WRITE_GRAN = 1 := rfl

/-- C3: the TSDB timestamp width is selected by configuration between
32-bit and 64-bit (`fdbTimeWidth` is parameterized over the toggle rather
than hard-coded), and in this deployment `FDB_USING_TIMESTAMP_64BIT` is
not defined, so `fdb_time_t` is 32 bits wide (`int32_t`). -/
theorem timestamp_width_config :
    FDB_USING_TIMESTAMP_64BIT = false ∧
    fdb_time_t_width = 32 ∧
    fdbTimeWidth false = 32 ∧
    fdbTimeWidth true = 64 := by
  refine ⟨rfl, rfl, rfl, rfl⟩

/-! ## Claim theorems about the recovery scan and the codec -/

/-- Recovery over fully committed records followed by any undecodable
tail yields exactly those records. -/
theorem recover_encodeAll_append (recs : List FdbRecord) (tb : List Nat)
    (htb : decode tb = none) :
    recover (encodeAll recs ++ tb) = recs := by
  induction recs with
  | nil => simpa [encodeAll] using recover_none htb
  | cons a as ih =>
    have he : encodeAll (a :: as) ++ tb = encode a ++ (encodeAll as ++ tb) := by
      simp [encodeAll]
    rw [he, recover_cons (decode_encode a (encodeAll as ++ tb)), ih]

/-- C4: a record is accepted by `decode` only when its status byte is
write-ok and its CRC matches (see the validity condition inside `decode`);
consequently, for a byte stream truncated mid-record — fully committed
records `recs` followed by a proper initial segment `tb` of the next
record's encoding — the recovery scan yields exactly the records fully
written before truncation, so no partial record is visible to `get` or
`query` over the recovered store.  The second conjunct covers truncation
exactly at a record boundary. -/
theorem recovery_after_truncation (recs : List FdbRecord) (r : FdbRecord)
    (tb : List Nat) (hpre : tb <+: encode r) (hne : tb ≠ encode r) :
    recover (encodeAll recs ++ tb) = recs ∧
    recover (encodeAll recs) = recs := by
  constructor
  · exact recover_encodeAll_append recs tb (decode_truncated r tb hpre hne)
  · have he : encodeAll recs = encodeAll recs ++ ([] : List Nat) := by simp
    rw [he]
    exact recover_encodeAll_append recs [] rfl

/-- Witness for C4: one committed record `⟨[1],[2]⟩` followed by the first
three bytes of the encoding of `⟨[3],[4]⟩`; recovery returns exactly the
committed record. -/
theorem recovery_after_truncation_witness :
    recover (encodeAll [FdbRecord.mk [1] [2]] ++ [1, 1, 3])
        = [FdbRecord.mk [1] [2]] ∧
    recover (encodeAll [FdbRecord.mk [1] [2]]) = [FdbRecord.mk [1] [2]] :=
  recovery_after_truncation [FdbRecord.mk [1] [2]] (FdbRecord.mk [3] [4])
    [1, 1, 3] ⟨[4, 9, 15], by decide⟩ (by decide)

/-- C6: the record codec round-trips: for every valid record within size
limits, decoding its encoding yields the record back (with no trailing
bytes), `decode` returning `none` in place of `CorruptRecord` otherwise. -/
theorem codec_round_trip (r : FdbRecord) (_hwf : r.wf) :
    decode (encode r) = some (r, []) := by
  have h2 := decode_encode r []
  simpa using h2

/-- Witness for C6 at the concrete record `⟨[1],[2]⟩`. -/
theorem codec_round_trip_witness :
    FdbRecord.wf (FdbRecord.mk [1] [2]) ∧
    decode (encode (FdbRecord.mk [1] [2]))
      = some (FdbRecord.mk [1] [2], []) :=
  ⟨by decide, codec_round_trip (FdbRecord.mk [1] [2]) (by decide)⟩

/-! ## Claim theorems about the KVDB engine -/

/-- C5: for every prior store state — including one already holding a
record for `k`, so overwrites are covered — after a successful `set(k, v)`
with no intervening `delete(k)` or `set(k, *)`, `get(k)` returns `v`; and
when no record exists for `k`, `get` returns the configured default value
for `k` if one exists, otherwise NotFound. -/
theorem kvdb_set_then_get (db : Kvdb) (k : Key) (v : Value) (ops : List KvOp)
    (hops : ∀ op ∈ ops, op.key ≠ k) :
    kvGet (applyOps (kvSet db k v) ops) k = GetResult.found v ∧
    ((∀ e ∈ db.log, e.1 ≠ k) →
      match db.defaults.find? (fun e => decide (e.1 = k)) with
      | some dv => kvGet db k = GetResult.defaulted dv.2
      | none => kvGet db k = GetResult.notFound) := by
  constructor
  · rw [kvGet_applyOps_ne (kvSet db k v) ops k hops]
    exact kvGet_append_self db k (some v)
  · intro hnone
    have hfind : db.log.reverse.find? (fun e => decide (e.1 = k)) = none :=
      List.find?_eq_none.mpr
        (fun x hx => by simpa using hnone x (List.mem_reverse.mp hx))
    have hkv : kvGet db k = kvFallback db k := by
      unfold kvGet
      rw [hfind]
    cases hd : db.defaults.find? (fun e => decide (e.1 = k)) with
    | none =>
      rw [hkv]
      unfold kvFallback
      rw [hd]
    | some dv =>
      rw [hkv]
      unfold kvFallback
      rw [hd]

/-- Witness for C5: a store whose log already holds `[1] ↦ [9]` — so the
`set` below is an overwrite — followed by a `set` on key `[1]` and then an
unrelated `set` on key `[3]`; `get [1]` returns the newly set value. -/
theorem kvdb_set_then_get_witness :
    kvGet (applyOps (kvSet (Kvdb.mk [([1], some [9])] []) [1] [2])
        [KvOp.setOp [3] [4]]) [1] = GetResult.found [2] ∧
    ((∀ e ∈ (Kvdb.mk [([1], some [9])] []).log, e.1 ≠ [1]) →
      kvGet (Kvdb.mk [([1], some [9])] []) [1] = GetResult.notFound) :=
  kvdb_set_then_get (Kvdb.mk [([1], some [9])] []) [1] [2] [KvOp.setOp [3] [4]]
    (by decide)

/-- C9: `delete` is idempotent at the observable level: a second
`delete(k)` immediately after a first leaves the observable store state
(the result of `get` at every key) identical, and in this model `delete`
is total, returning no error. -/
theorem kvdb_delete_idempotent (db : Kvdb) (k k' : Key) :
    kvGet (kvDelete (kvDelete db k) k) k' = kvGet (kvDelete db k) k' := by
  by_cases hk : k = k'
  · subst hk
    have h1 : kvGet (kvDelete (kvDelete db k) k) k = kvFallback (kvDelete db k) k :=
      kvGet_append_self (kvDelete db k) k none
    have h2 : kvGet (kvDelete db k) k = kvFallback db k :=
      kvGet_append_self db k none
    rw [h1, h2]
    rfl
  · exact kvGet_append_ne (kvDelete db k) k' k none hk

/-- C10: `FDB_KV_AUTO_UPDATE` is commented out in `fdb_cfg.h`, so the
version-mismatch policy selected by this deployment's configuration is
"leave as-is": on any stored/expected version pair, startup neither wipes
nor migrates the existing KV data. -/
theorem kv_auto_update_disabled :
    FDB_KV_AUTO_UPDATE = false ∧
    ∀ (storedVer expectedVer : Nat) (db : Kvdb),
      applyVersionPolicy FDB_KV_AUTO_UPDATE storedVer expectedVer db = db := by
  refine ⟨rfl, fun sv ev db => ?_⟩
  simp [applyVersionPolicy, FDB_KV_AUTO_UPDATE]

/-! ## Claim theorems about the TSDB engine -/

/-- C7: TSDB append enforces non-decreasing timestamps: after a
successful `append(t1, _)`, an `append(t2, _)` with `t2 < t1` fails with
`OutOfOrder` and leaves the store state unchanged. -/
theorem tsdb_out_of_order_rejected (db db' : Tsdb) (t1 t2 : FdbTime)
    (v1 v2 : Value) (h1 : tsAppend db t1 v1 = (db', AppendResult.ok))
    (hlt : t2 < t1) :
    tsAppend db' t2 v2 = (db', AppendResult.outOfOrder) := by
  have hdb' : db' = { recs := db.recs ++ [(t1, v1)], lastTime := some t1 } := by
    unfold tsAppend at h1
    cases hl : db.lastTime with
    | none =>
      simp only [hl] at h1
      exact (congrArg Prod.fst h1).symm
    | some l =>
      simp only [hl] at h1
      by_cases hcase : t1 < l
      · rw [if_pos hcase] at h1
        exact absurd (congrArg Prod.snd h1) (by simp)
      · rw [if_neg hcase] at h1
        exact (congrArg Prod.fst h1).symm
  subst hdb'
  simp [tsAppend, hlt]

/-- Witness for C7: after appending at timestamp 5, an append at
timestamp 3 is rejected with `OutOfOrder` and the store is unchanged. -/
theorem tsdb_out_of_order_rejected_witness :
    tsAppend (Tsdb.mk [(5, [1])] (some 5)) 3 [2]
      = (Tsdb.mk [(5, [1])] (some 5), AppendResult.outOfOrder) :=
  tsdb_out_of_order_rejected (Tsdb.mk [] none) (Tsdb.mk [(5, [1])] (some 5))
    5 3 [1] [2] (by decide) (by decide)

/-! ## Claim theorems about the allocator and garbage collection -/

/-- C8: the sector selected for synchronous garbage collection (invoked
by `allocWrite` when the active sector cannot fit the record and no empty
sector exists) is a `full` sector whose garbage ratio is maximal, ties
broken by the lowest sector index; and whenever reclamation yields no
space, the write fails with `NoSpace` and leaves the store unchanged —
data is never silently dropped. -/
theorem gc_victim_selection (ss : List Sector) (i : Nat)
    (h : selectGcVictim ss = some i) :
    (∃ s, ss[i]? = some s ∧ s.state = SectorState.full ∧
      ∀ j t, ss[j]? = some t → t.state = SectorState.full →
        t.garbage ≤ s.garbage ∧ (t.garbage = s.garbage → i ≤ j)) ∧
    ∀ (store : GcStore) (need : Nat) (st' : GcStore),
      allocWrite store need = (st', WriteResult.noSpace) → st' = store := by
  refine ⟨?_, fun store need st' hw => allocWrite_noSpace_unchanged store need st' hw⟩
  unfold selectGcVictim at h
  cases hb : pickVictim (fullSectors ss 0) with
  | none =>
    rw [hb] at h
    simp at h
  | some b =>
    rw [hb] at h
    simp at h
    subst h
    obtain ⟨hstate, _, hget⟩ := fullSectors_sound ss 0 b (pickVictim_mem _ b hb)
    refine ⟨b.2, ?_, hstate, ?_⟩
    · simpa using hget
    · intro j t hjt ht
      have hmem := fullSectors_complete ss 0 j t hjt ht
      constructor
      · exact pickVictim_max _ b hb (0 + j, t) hmem
      · intro hg
        have hle := pickVictim_earliest _ b (fullSectors_pairwise ss 0) hb
          (0 + j, t) hmem hg
        omega

/-- Witness for C8: among two full sectors with garbage byte counts 30
and 70, the selected victim is the higher-garbage sector at index 1. -/
theorem gc_victim_selection_witness :
    (∃ s, ([Sector.mk SectorState.full 100 30,
        Sector.mk SectorState.full 100 70] : List Sector)[1]? = some s ∧
      s.state = SectorState.full ∧
      ∀ j t, ([Sector.mk SectorState.full 100 30,
          Sector.mk SectorState.full 100 70] : List Sector)[j]? = some t →
        t.state = SectorState.full →
        t.garbage ≤ s.garbage ∧ (t.garbage = s.garbage → 1 ≤ j)) ∧
    ∀ (store : GcStore) (need : Nat) (st' : GcStore),
      allocWrite store need = (st', WriteResult.noSpace) → st' = store :=
  gc_victim_selection
    [Sector.mk SectorState.full 100 30, Sector.mk SectorState.full 100 70] 1
    (by decide)

end FlashDB
